import Mathlib

/-!
Verification of the bipartite matching core of a 2D car-pose-estimation
training pipeline (`src/models/matcher.py`, class `HungarianMatcher`).

Tensors are shallowly embedded as (nested) lists of rationals; predicted
class probabilities are produced by a row-wise function `sm` standing for
`softmax(-1)` (the softmax itself is transcendental; every property below
holds for an arbitrary row-wise map, which is exactly how the source
applies it).  The scipy solver `linear_sum_assignment`, whose code is not
part of the repository, is modelled from the spec as an exact brute-force
minimiser.
-/

namespace Matcher

/-- One ground-truth annotation for one batch element: integer class labels
and one keypoint-encoding row per target (`targets[b]["labels"]`,
`targets[b]["keypoints"]` in `matcher.py`). -/
structure Target where
  labels : List ℕ
  keypoints : List (List ℚ)
deriving Repr, DecidableEq

/-- The prediction dict: `outputs["labels"]` is `[bs, num_queries, num_classes]`
class logits, `outputs["keypoints"]` is `[bs, num_queries, 2+3K]`. -/
structure Outputs where
  labels : List (List (List ℚ))
  keypoints : List (List (List ℚ))
deriving Repr, DecidableEq

/-- Sum of coordinate-wise absolute differences: the entries of
`torch.cdist(·, ·, p=1)`. -/
def dotAbs (a b : List ℚ) : ℚ := (List.zipWith (fun x y => |x - y|) a b).sum

/-- Sum of coordinate-wise squared differences: the entries of
`torch.cdist(·, ·, p=2).square()` (squaring the Euclidean distance
recovers the sum of squares exactly). -/
def sqDist (a b : List ℚ) : ℚ := (List.zipWith (fun x y => (x - y) ^ 2) a b).sum

/-- Pointwise product of two rows (`*` on broadcast tensors). -/
def vecMul (a b : List ℚ) : List ℚ := List.zipWith (· * ·) a b

/-- Pointwise sum of two rows (`+` on tensors). -/
def vecAdd (a b : List ℚ) : List ℚ := List.zipWith (· + ·) a b

/-- `torch.repeat_interleave(v, 2, dim=1)` on one row:
`[v1, v2, ...] ↦ [v1, v1, v2, v2, ...]` (used to double the visibility
mask so it covers the x and y delta of each keypoint). -/
def dup2 (v : List ℚ) : List ℚ := (v.map (fun x => [x, x])).flatten

/-- `row[:, :2]`: the object center slice of a keypoint-encoding row. -/
def centerOf (kp : List ℚ) : List ℚ := kp.take 2

/-- `row[:, 2:2+2K]`: the per-keypoint delta slice. -/
def deltasOf (K : ℕ) (kp : List ℚ) : List ℚ := (kp.drop 2).take (2 * K)

/-- `row[:, 2+2K:]`: the per-keypoint visibility slice. -/
def visOf (K : ℕ) (kp : List ℚ) : List ℚ := kp.drop (2 + 2 * K)

/-- `torch.repeat_interleave(C.unsqueeze(1), K, dim=1).view(-1, 2K)` on one
row: the center pair replicated `K` times contiguously. -/
def expandCenter (K : ℕ) (c : List ℚ) : List ℚ := (List.replicate K c).flatten

/-- `A = C_expand + Z`: absolute keypoint positions of one row
(`matcher.py` lines 89-93, identical formula for predictions and targets). -/
def absOf (K : ℕ) (kp : List ℚ) : List ℚ :=
  vecAdd (expandCenter K (centerOf kp)) (deltasOf K kp)

/-- One entry of the visibility-masked L1 pattern
`torch.cdist(X * v, y.unsqueeze(0) * v, p=1)` used for both the
delta-offset and the absolute-position cost (`matcher.py` lines 104, 107). -/
def maskedL1 (xp yg v : List ℚ) : ℚ := dotAbs (vecMul xp v) (vecMul yg v)

/-- Full pairwise `cdist(·,·,p=2).square()` matrix, rows of `A` against rows
of `B`. -/
def cdistSq (A B : List (List ℚ)) : List (List ℚ) :=
  A.map (fun a => B.map (fun b => sqDist a b))

/-- Scalar multiple of a matrix. -/
def smul (c : ℚ) (A : List (List ℚ)) : List (List ℚ) :=
  A.map (List.map (fun x => c * x))

/-- Entrywise sum of two matrices. -/
def madd (A B : List (List ℚ)) : List (List ℚ) := List.zipWith vecAdd A B

/-- `tensor.split(sizes, -1)`: cut a matrix into consecutive column blocks. -/
def splitCols : List ℕ → List (List ℚ) → List (List (List ℚ))
  | [], _ => []
  | s :: rest, M => (M.map (List.take s)) :: splitCols rest (M.map (List.drop s))

/-- `self.l_deltas = 0.5` (`matcher.py` line 30). -/
def l_deltas : ℚ := 1 / 2

/-- `self.l_vis = 0.2` (`matcher.py` line 31). -/
def l_vis : ℚ := 1 / 5

/-- `self.l_ctr = 0.5` (`matcher.py` line 32). -/
def l_ctr : ℚ := 1 / 2

/-- `self.l_abs = 4` (`matcher.py` line 33). -/
def l_abs : ℚ := 4

/-- The flat cost matrix `C` of `HungarianMatcher.forward_`
(`matcher.py` lines 73-111) before the `view`/`split`: one row per
flattened prediction, one column per concatenated target.  `sm` is the
row-wise `softmax(-1)`; `cost_class` the configurable classification
weight.  `offset_loss` and `abs_loss` are built in the source column by
column (one `cdist` per target, concatenated along `dim=1`); the row-major
nested map below produces the same matrix entry for entry. -/
def costMatrix (sm : List ℚ → List ℚ) (cost_class : ℚ) (K : ℕ)
    (outputs : Outputs) (targets : List Target) : List (List ℚ) :=
  let out_prob := outputs.labels.flatten.map sm
  let out_keypoints := outputs.keypoints.flatten
  let C_pred := out_keypoints.map centerOf
  let Z_pred := out_keypoints.map (deltasOf K)
  let V_pred := out_keypoints.map (visOf K)
  let tgt_ids := (targets.map Target.labels).flatten
  let tgt_keypoints := (targets.map Target.keypoints).flatten
  let C_gt := tgt_keypoints.map centerOf
  let Z_gt := tgt_keypoints.map (deltasOf K)
  let V_gt := tgt_keypoints.map (visOf K)
  let A_gt := tgt_keypoints.map (absOf K)
  let A_pred := out_keypoints.map (absOf K)
  let cost_class_m := out_prob.map (fun p => tgt_ids.map (fun t => -(p.getD t 0)))
  let Vgt_ := V_gt.map dup2
  let offset_loss := Z_pred.map (fun zp => (Vgt_.zip Z_gt).map (fun vz => maskedL1 zp vz.2 vz.1))
  let viz_loss := cdistSq V_pred V_gt
  let center_loss := cdistSq C_pred C_gt
  let abs_loss := A_pred.map (fun ap => (Vgt_.zip A_gt).map (fun va => maskedL1 ap va.2 va.1))
  madd (smul cost_class cost_class_m)
    (madd (smul l_deltas offset_loss)
      (madd (smul l_vis viz_loss)
        (madd (smul l_ctr center_loss) (smul l_abs abs_loss))))

/-- Cost of an assignment on matrix `M`: the sum of the selected entries
(what `linear_sum_assignment` minimises). -/
def assignCost (M : List (List ℚ)) (rs cs : List ℕ) : ℚ :=
  ((rs.zip cs).map (fun rc => (M.getD rc.1 []).getD rc.2 0)).sum

/-- All duplicate-free index sequences of length `k` drawn from `[0, n)`. -/
def injSeqs (n : ℕ) : ℕ → List (List ℕ)
  | 0 => [[]]
  | k + 1 =>
      (List.range n).flatMap (fun i =>
        (injSeqs n k).filterMap (fun s => if i ∈ s then none else some (i :: s)))

/-- All candidate assignments of `k` rows of `[0, n)` to `k` columns of
`[0, m)`. -/
def allAssignments (n m k : ℕ) : List (List ℕ × List ℕ) :=
  (injSeqs n k).flatMap (fun rs => (injSeqs m k).map (fun cs => (rs, cs)))

/-- First minimiser of `f` over `a :: l` (deterministic tie-break). -/
def pickMin (f : α → ℚ) (a : α) (l : List α) : α :=
  l.foldl (fun b x => if f x < f b then x else b) a

/-- Modelled from the spec: `scipy.optimize.linear_sum_assignment`, whose
implementation is not part of this repository, is specified as the exact
rectangular linear-sum-assignment solver: it returns a minimum-total-cost
assignment of size `min(num_rows, num_cols)`, deterministically.  Modelled
as a brute-force scan of every valid assignment. -/
def linear_sum_assignment (M : List (List ℚ)) : List ℕ × List ℕ :=
  let n := M.length
  let m := (M.getD 0 []).length
  let cands := allAssignments n m (min n m)
  pickMin (fun rc => assignCost M rc.1 rc.2) (cands.headD ([], [])) cands.tail

/-- `HungarianMatcher.forward_` (`matcher.py` lines 49-116): build the flat
cost matrix, `view(bs, num_queries, -1)`, split it along the target
dimension by each element's target count, and solve each batch element's
block.  `c[i]` on the viewed tensor selects rows `[i*nq, (i+1)*nq)` of the
flat block. -/
def forward_ (sm : List ℚ → List ℚ) (cost_class : ℚ) (K : ℕ)
    (outputs : Outputs) (targets : List Target) : List (List ℕ × List ℕ) :=
  let num_queries := (outputs.labels.getD 0 []).length
  let C := costMatrix sm cost_class K outputs targets
  let sizes := targets.map (fun v => v.keypoints.length)
  (splitCols sizes C).enum.map (fun ic =>
    linear_sum_assignment ((ic.2.drop (ic.1 * num_queries)).take num_queries))

/-- `HungarianMatcher.forward` (`matcher.py` lines 36-47): in the default
`splited` mode, loop over the batch and run `forward_` on one-element
slices, taking the single result of each call. -/
def forward (sm : List ℚ → List ℚ) (cost_class : ℚ) (K : ℕ) (splited : Bool)
    (outputs : Outputs) (targets : List Target) : List (List ℕ × List ℕ) :=
  if !splited then forward_ sm cost_class K outputs targets
  else
    (List.range outputs.labels.length).map (fun b =>
      (forward_ sm cost_class K
        ⟨[outputs.labels.getD b []], [outputs.keypoints.getD b []]⟩
        [targets.getD b ⟨[], []⟩]).getD 0 ([], []))

/-- The per-pair total cost, written the way the spec states it: the
classification term plus the four fixed-weight geometric terms, for one
prediction row (logits `lrow`, keypoints `pkp`) against one target (label
`tid`, keypoints `tkp`). -/
def pairCost (sm : List ℚ → List ℚ) (cost_class : ℚ) (K : ℕ)
    (lrow pkp : List ℚ) (tid : ℕ) (tkp : List ℚ) : ℚ :=
  cost_class * (-((sm lrow).getD tid 0)) +
    (l_deltas * maskedL1 (deltasOf K pkp) (deltasOf K tkp) (dup2 (visOf K tkp)) +
      (l_vis * sqDist (visOf K pkp) (visOf K tkp) +
        (l_ctr * sqDist (centerOf pkp) (centerOf tkp) +
          l_abs * maskedL1 (absOf K pkp) (absOf K tkp) (dup2 (visOf K tkp)))))

/-! ### Generic list lemmas -/

theorem zipWith_map_same {α β γ δ : Type} (f : β → γ → δ) (g : α → β) (h : α → γ)
    (l : List α) : List.zipWith f (l.map g) (l.map h) = l.map (fun x => f (g x) (h x)) := by
  induction l with
  | nil => rfl
  | cons a l ih => simp [ih]

theorem flatten_segment {α : Type} (L : List (List α)) (b : ℕ) (hb : b < L.length) :
    (L.flatten.drop (((L.take b).map List.length).sum)).take (L.getD b []).length
      = L.getD b [] := by
  induction L generalizing b with
  | nil => simp at hb
  | cons x rest ih =>
    cases b with
    | zero =>
      simp only [List.take_zero, List.map_nil, List.sum_nil, List.drop_zero,
        List.getD_cons_zero, List.flatten_cons]
      exact List.take_left x rest.flatten
    | succ b =>
      have hb' : b < rest.length := by simpa using hb
      simp only [List.take_succ_cons, List.map_cons, List.sum_cons,
        List.getD_cons_succ, List.flatten_cons, List.drop_append]
      exact ih b hb'

theorem flatten_segment_uniform {α : Type} (L : List (List α)) (n : ℕ)
    (hL : ∀ l ∈ L, l.length = n) (b : ℕ) (hb : b < L.length) :
    (L.flatten.drop (b * n)).take n = L.getD b [] := by
  have hgd : L.getD b [] = L[b] := List.getD_eq_getElem L [] hb
  have hlen : (L.getD b []).length = n := by
    rw [hgd]; exact hL _ (List.getElem_mem hb)
  have hsum : ((L.take b).map List.length).sum = b * n := by
    have hrep : (L.take b).map List.length = List.replicate b n := by
      rw [List.eq_replicate_iff]
      refine ⟨by simp [hb.le], ?_⟩
      intro x hx
      rcases List.mem_map.1 hx with ⟨l, hl, rfl⟩
      exact hL l (List.mem_of_mem_take hl)
    rw [hrep, List.sum_replicate, smul_eq_mul]
  have h := flatten_segment L b hb
  rw [hlen, hsum] at h
  exact h

/-! ### Canonical per-pair form of the cost matrix -/

theorem smul_nested {α β : Type} (c : ℚ) (X : List α) (A : List β) (f : α → β → ℚ) :
    smul c (X.map fun x => A.map (f x)) = X.map fun x => A.map (fun a => c * f x a) := by
  simp [smul, List.map_map, Function.comp]

theorem madd_nested_same {α β : Type} (X : List α) (A : List β) (f g : α → β → ℚ) :
    madd (X.map fun x => A.map (f x)) (X.map fun x => A.map (g x)) =
      X.map fun x => A.map (fun a => f x a + g x a) := by
  rw [madd, zipWith_map_same]
  apply List.map_congr_left
  intro x _
  rw [vecAdd, zipWith_map_same]

theorem costMatrix_canon (sm : List ℚ → List ℚ) (w : ℚ) (K : ℕ)
    (outputs : Outputs) (targets : List Target)
    (hN : outputs.labels.flatten.length = outputs.keypoints.flatten.length)
    (hT : ((targets.map Target.labels).flatten).length
        = ((targets.map Target.keypoints).flatten).length) :
    costMatrix sm w K outputs targets =
      (outputs.labels.flatten.zip outputs.keypoints.flatten).map (fun p =>
        (((targets.map Target.labels).flatten).zip
            ((targets.map Target.keypoints).flatten)).map (fun t =>
          pairCost sm w K p.1 p.2 t.1 t.2)) := by
  apply List.ext_getElem
  · simp only [costMatrix, madd, smul, cdistSq, List.length_zipWith, List.length_map,
      List.length_zip]
    omega
  · intro i h1 h2
    apply List.ext_getElem
    · simp only [costMatrix, madd, smul, cdistSq, vecAdd, List.getElem_zipWith,
        List.getElem_map, List.length_zipWith, List.length_map, List.length_zip] at h1 h2 ⊢
      omega
    · intro j hj1 hj2
      simp only [costMatrix, madd, smul, cdistSq, vecAdd, List.getElem_zipWith,
        List.getElem_map, List.getElem_zip, pairCost]

/-! ### Per-batch-element decomposition of `forward_` -/

theorem flatten_length_uniform {α : Type} (L : List (List α)) (n : ℕ)
    (hL : ∀ l ∈ L, l.length = n) : L.flatten.length = L.length * n := by
  induction L with
  | nil => simp
  | cons x rest ih =>
    simp only [List.flatten_cons, List.length_append, List.length_cons]
    rw [hL x (by simp), ih (fun l hl => hL l (by simp [hl]))]
    ring

theorem splitCols_length (sizes : List ℕ) (M : List (List ℚ)) :
    (splitCols sizes M).length = sizes.length := by
  induction sizes generalizing M with
  | nil => rfl
  | cons s rest ih => simp [splitCols, ih]

theorem splitCols_getD (sizes : List ℕ) (M : List (List ℚ)) (b : ℕ)
    (hb : b < sizes.length) :
    (splitCols sizes M).getD b []
      = M.map (fun r => (r.drop ((sizes.take b).sum)).take (sizes.getD b 0)) := by
  induction sizes generalizing M b with
  | nil => simp at hb
  | cons s rest ih =>
    cases b with
    | zero => simp [splitCols]
    | succ b =>
      have hb' : b < rest.length := by simpa using hb
      simp only [splitCols, List.getD_cons_succ, List.take_succ_cons, List.sum_cons]
      rw [ih _ b hb', List.map_map]
      apply List.map_congr_left
      intro r _
      simp only [Function.comp_apply, List.drop_drop]

theorem map_segment {α β : Type} (f : α → β) (l : List α) (x n : ℕ) :
    ((l.map f).drop x).take n = ((l.drop x).take n).map f := by
  rw [← List.map_drop, ← List.map_take]

theorem zip_segment {α β : Type} (a : List α) (b : List β) (x n : ℕ) :
    ((a.zip b).drop x).take n = ((a.drop x).take n).zip ((b.drop x).take n) := by
  rw [List.zip_eq_zipWith, List.drop_zipWith, List.take_zipWith, ← List.zip_eq_zipWith]

/-- The cost matrix the matcher effectively solves for one batch element:
that element's predictions against that element's targets, entry by entry
the per-pair total cost. -/
def elemMatrix (sm : List ℚ → List ℚ) (w : ℚ) (K : ℕ)
    (lab kp : List (List ℚ)) (t : Target) : List (List ℚ) :=
  (lab.zip kp).map (fun p =>
    (t.labels.zip t.keypoints).map (fun q => pairCost sm w K p.1 p.2 q.1 q.2))

theorem forward_eq_elem (sm : List ℚ → List ℚ) (w : ℚ) (K : ℕ)
    (outputs : Outputs) (targets : List Target)
    (hbsK : outputs.keypoints.length = outputs.labels.length)
    (hbsT : targets.length = outputs.labels.length)
    (hnql : ∀ l ∈ outputs.labels, l.length = (outputs.labels.getD 0 []).length)
    (hnqk : ∀ k ∈ outputs.keypoints, k.length = (outputs.labels.getD 0 []).length)
    (halign : ∀ t ∈ targets, t.labels.length = t.keypoints.length) :
    forward_ sm w K outputs targets
      = (List.range targets.length).map (fun b =>
          linear_sum_assignment (elemMatrix sm w K (outputs.labels.getD b [])
            (outputs.keypoints.getD b []) (targets.getD b ⟨[], []⟩))) := by
  have hN : outputs.labels.flatten.length = outputs.keypoints.flatten.length := by
    rw [flatten_length_uniform _ _ hnql, flatten_length_uniform _ _ hnqk, hbsK]
  have hT : ((targets.map Target.labels).flatten).length
      = ((targets.map Target.keypoints).flatten).length := by
    simp only [List.length_flatten, List.map_map]
    congr 1
    exact List.map_congr_left (fun t ht => halign t ht)
  simp only [forward_]
  rw [costMatrix_canon sm w K outputs targets hN hT]
  apply List.ext_getElem
  · simp [splitCols_length]
  · intro b hb1 hb2
    have hbt : b < targets.length := by
      simpa [splitCols_length] using hb1
    have hbl : b < outputs.labels.length := by omega
    have hbk : b < outputs.keypoints.length := by omega
    rw [List.getElem_map, List.getElem_map, List.getElem_range, List.getElem_enum]
    congr 1
    -- the matrix solved for batch element b equals elemMatrix at b
    have hbsp : b < (splitCols (targets.map fun v => v.keypoints.length)
        ((outputs.labels.flatten.zip outputs.keypoints.flatten).map fun p =>
          (((targets.map Target.labels).flatten).zip
              ((targets.map Target.keypoints).flatten)).map fun t =>
            pairCost sm w K p.1 p.2 t.1 t.2)).length := by
      simpa [splitCols_length] using hbt
    have hgd : (splitCols (targets.map fun v => v.keypoints.length)
          ((outputs.labels.flatten.zip outputs.keypoints.flatten).map fun p =>
            (((targets.map Target.labels).flatten).zip
                ((targets.map Target.keypoints).flatten)).map fun t =>
              pairCost sm w K p.1 p.2 t.1 t.2))[b]
        = ((outputs.labels.flatten.zip outputs.keypoints.flatten).map fun p =>
            (((targets.map Target.labels).flatten).zip
                ((targets.map Target.keypoints).flatten)).map fun t =>
              pairCost sm w K p.1 p.2 t.1 t.2).map
            (fun r => (r.drop (((targets.map fun v => v.keypoints.length).take b).sum)).take
              ((targets.map fun v => v.keypoints.length).getD b 0)) := by
      rw [← List.getD_eq_getElem _ []]
      exact splitCols_getD _ _ b (by simpa using hbt)
    rw [hgd]
    have htb : targets.getD b ⟨[], []⟩ = targets[b] := List.getD_eq_getElem _ _ hbt
    have hbtl : b < (targets.map Target.labels).length := by simpa using hbt
    have hbtk : b < (targets.map Target.keypoints).length := by simpa using hbt
    have hbts : b < (targets.map fun v => v.keypoints.length).length := by simpa using hbt
    have hsizes_take : ((targets.map fun v => v.keypoints.length).take b)
        = ((targets.map Target.labels).take b).map List.length := by
      rw [← List.map_take, ← List.map_take, List.map_map]
      apply List.map_congr_left
      intro t ht
      exact (halign t (List.mem_of_mem_take ht)).symm
    have hsizes_take_k : ((targets.map fun v => v.keypoints.length).take b)
        = ((targets.map Target.keypoints).take b).map List.length := by
      rw [← List.map_take, ← List.map_take, List.map_map]
      rfl
    have hsb_lab : ((targets.map fun v => v.keypoints.length).getD b 0)
        = ((targets.map Target.labels).getD b []).length := by
      rw [List.getD_eq_getElem _ _ hbts, List.getD_eq_getElem _ _ hbtl,
        List.getElem_map, List.getElem_map]
      exact (halign _ (List.getElem_mem hbt)).symm
    have hsb_kp : ((targets.map fun v => v.keypoints.length).getD b 0)
        = ((targets.map Target.keypoints).getD b []).length := by
      rw [List.getD_eq_getElem _ _ hbts, List.getD_eq_getElem _ _ hbtk,
        List.getElem_map, List.getElem_map]
    have htiseg : (((targets.map Target.labels).flatten.drop
          (((targets.map fun v => v.keypoints.length).take b).sum)).take
          ((targets.map fun v => v.keypoints.length).getD b 0))
        = (targets.getD b ⟨[], []⟩).labels := by
      rw [hsizes_take, hsb_lab, flatten_segment _ b hbtl,
        List.getD_eq_getElem _ _ hbtl, List.getElem_map, htb]
    have htkseg : (((targets.map Target.keypoints).flatten.drop
          (((targets.map fun v => v.keypoints.length).take b).sum)).take
          ((targets.map fun v => v.keypoints.length).getD b 0))
        = (targets.getD b ⟨[], []⟩).keypoints := by
      rw [hsizes_take_k, hsb_kp, flatten_segment _ b hbtk,
        List.getD_eq_getElem _ _ hbtk, List.getElem_map, htb]
    have hsegL : ((outputs.labels.flatten.drop
          (b * (outputs.labels.getD 0 []).length)).take (outputs.labels.getD 0 []).length)
        = outputs.labels.getD b [] := flatten_segment_uniform _ _ hnql b hbl
    have hsegK : ((outputs.keypoints.flatten.drop
          (b * (outputs.labels.getD 0 []).length)).take (outputs.labels.getD 0 []).length)
        = outputs.keypoints.getD b [] := flatten_segment_uniform _ _ hnqk b hbk
    dsimp only
    rw [List.map_map, map_segment, zip_segment, hsegL, hsegK]
    unfold elemMatrix
    apply List.map_congr_left
    intro p _
    simp only [Function.comp_apply]
    rw [map_segment, zip_segment, htiseg, htkseg]

/-! ### Exactness of the assignment solver -/

/-- Validity of a candidate assignment for an `n × m` matrix: `k` pairwise
distinct rows below `n` matched to `k` pairwise distinct columns below `m`
(the spec's invariants on an assignment result). -/
def ValidAssign (n m k : ℕ) (rc : List ℕ × List ℕ) : Prop :=
  rc.1.length = k ∧ rc.2.length = k ∧ rc.1.Nodup ∧ rc.2.Nodup ∧
    (∀ r ∈ rc.1, r < n) ∧ (∀ c ∈ rc.2, c < m)

instance (n m k : ℕ) (rc : List ℕ × List ℕ) : Decidable (ValidAssign n m k rc) := by
  unfold ValidAssign
  infer_instance

theorem mem_injSeqs (n k : ℕ) (l : List ℕ) :
    l ∈ injSeqs n k ↔ l.length = k ∧ l.Nodup ∧ ∀ x ∈ l, x < n := by
  induction k generalizing l with
  | zero =>
    simp only [injSeqs, List.mem_singleton]
    constructor
    · rintro rfl
      simp
    · intro h
      exact List.eq_nil_of_length_eq_zero h.1
  | succ k ih =>
    simp only [injSeqs, List.mem_flatMap, List.mem_filterMap, List.mem_range]
    constructor
    · rintro ⟨i, hi, s, hs, hif⟩
      by_cases hmem : i ∈ s
      · simp [hmem] at hif
      · simp only [hmem, if_neg, not_false_iff, Option.some.injEq] at hif
        obtain ⟨hls, hnd, hlt⟩ := (ih s).1 hs
        subst hif
        refine ⟨by simp [hls], List.nodup_cons.2 ⟨hmem, hnd⟩, ?_⟩
        intro x hx
        rcases List.mem_cons.1 hx with rfl | hx
        · exact hi
        · exact hlt x hx
    · rintro ⟨hl, hnd, hlt⟩
      cases l with
      | nil => simp at hl
      | cons x s =>
        have hnd' := List.nodup_cons.1 hnd
        refine ⟨x, hlt x (by simp), s, ?_, ?_⟩
        · exact (ih s).2 ⟨by simpa using hl, hnd'.2, fun y hy => hlt y (by simp [hy])⟩
        · simp [hnd'.1]

theorem mem_allAssignments (n m k : ℕ) (rc : List ℕ × List ℕ) :
    rc ∈ allAssignments n m k ↔ ValidAssign n m k rc := by
  obtain ⟨rs, cs⟩ := rc
  simp only [allAssignments, List.mem_flatMap, List.mem_map, Prod.mk.injEq, ValidAssign]
  constructor
  · rintro ⟨rs', hrs', cs', hcs', rfl, rfl⟩
    obtain ⟨h1, h2, h3⟩ := (mem_injSeqs n k rs').1 hrs'
    obtain ⟨h4, h5, h6⟩ := (mem_injSeqs m k cs').1 hcs'
    exact ⟨h1, h4, h2, h5, h3, h6⟩
  · intro ⟨h1, h4, h2, h5, h3, h6⟩
    exact ⟨rs, (mem_injSeqs n k rs).2 ⟨h1, h2, h3⟩, cs,
      (mem_injSeqs m k cs).2 ⟨h4, h5, h6⟩, rfl, rfl⟩

theorem pickMin_mem {α : Type} (f : α → ℚ) (a : α) (l : List α) :
    pickMin f a l ∈ a :: l := by
  induction l generalizing a with
  | nil => simp [pickMin]
  | cons x l ih =>
    have step : pickMin f a (x :: l) = pickMin f (if f x < f a then x else a) l := rfl
    rw [step]
    have h := ih (if f x < f a then x else a)
    by_cases hx : f x < f a
    · simp only [hx, if_pos] at h ⊢
      rcases List.mem_cons.1 h with h' | h'
      · rw [h']
        simp
      · exact List.mem_cons.2 (Or.inr (List.mem_cons.2 (Or.inr h')))
    · simp only [hx, if_neg, not_false_iff] at h ⊢
      rcases List.mem_cons.1 h with h' | h'
      · exact List.mem_cons.2 (Or.inl h')
      · exact List.mem_cons.2 (Or.inr (List.mem_cons.2 (Or.inr h')))

theorem pickMin_le {α : Type} (f : α → ℚ) (a : α) (l : List α) :
    f (pickMin f a l) ≤ f a ∧ ∀ x ∈ l, f (pickMin f a l) ≤ f x := by
  induction l generalizing a with
  | nil => exact ⟨le_refl _, by simp⟩
  | cons x l ih =>
    have step : pickMin f a (x :: l) = pickMin f (if f x < f a then x else a) l := rfl
    obtain ⟨h1, h2⟩ := ih (if f x < f a then x else a)
    rw [step]
    by_cases hx : f x < f a
    · simp only [hx, if_pos] at h1 h2 ⊢
      refine ⟨le_trans h1 (le_of_lt hx), ?_⟩
      intro y hy
      rcases List.mem_cons.1 hy with rfl | hy
      · exact h1
      · exact h2 y hy
    · simp only [hx, if_neg, not_false_iff] at h1 h2 ⊢
      refine ⟨h1, ?_⟩
      intro y hy
      rcases List.mem_cons.1 hy with rfl | hy
      · exact le_trans h1 (not_lt.1 hx)
      · exact h2 y hy

theorem lsa_mem (M : List (List ℚ)) :
    linear_sum_assignment M
      ∈ allAssignments M.length (M.getD 0 []).length
          (min M.length (M.getD 0 []).length) := by
  have hv : (List.range (min M.length (M.getD 0 []).length),
      List.range (min M.length (M.getD 0 []).length))
      ∈ allAssignments M.length (M.getD 0 []).length
          (min M.length (M.getD 0 []).length) :=
    (mem_allAssignments _ _ _ _).2 ⟨by simp, by simp, List.nodup_range _, List.nodup_range _,
      fun r hr => lt_of_lt_of_le (List.mem_range.1 hr) (min_le_left _ _),
      fun c hc => lt_of_lt_of_le (List.mem_range.1 hc) (min_le_right _ _)⟩
  simp only [linear_sum_assignment]
  generalize hAll : allAssignments M.length (M.getD 0 []).length
      (min M.length (M.getD 0 []).length) = cands at hv ⊢
  cases cands with
  | nil => simp at hv
  | cons a l =>
    simp only [List.headD_cons, List.tail_cons]
    apply pickMin_mem

theorem lsa_valid (M : List (List ℚ)) :
    ValidAssign M.length (M.getD 0 []).length (min M.length (M.getD 0 []).length)
      (linear_sum_assignment M) :=
  (mem_allAssignments _ _ _ _).1 (lsa_mem M)

theorem lsa_min (M : List (List ℚ)) (rc : List ℕ × List ℕ)
    (h : ValidAssign M.length (M.getD 0 []).length
      (min M.length (M.getD 0 []).length) rc) :
    assignCost M (linear_sum_assignment M).1 (linear_sum_assignment M).2
      ≤ assignCost M rc.1 rc.2 := by
  have hmem := (mem_allAssignments _ _ _ rc).2 h
  simp only [linear_sum_assignment]
  generalize hAll : allAssignments M.length (M.getD 0 []).length
      (min M.length (M.getD 0 []).length) = cands at hmem ⊢
  cases cands with
  | nil => simp at hmem
  | cons a l =>
    simp only [List.headD_cons, List.tail_cons]
    rcases List.mem_cons.1 hmem with heq | hm
    · rw [heq]
      apply (pickMin_le (fun rc => assignCost M rc.1 rc.2) a l).1
    · apply (pickMin_le (fun rc => assignCost M rc.1 rc.2) a l).2 rc hm

theorem elemMatrix_length (sm : List ℚ → List ℚ) (w : ℚ) (K : ℕ)
    (lab kp : List (List ℚ)) (t : Target) :
    (elemMatrix sm w K lab kp t).length = min lab.length kp.length := by
  simp [elemMatrix]

theorem elemMatrix_firstrow (sm : List ℚ → List ℚ) (w : ℚ) (K : ℕ)
    (lab kp : List (List ℚ)) (t : Target)
    (h : 0 < min lab.length kp.length) :
    ((elemMatrix sm w K lab kp t).getD 0 []).length
      = min t.labels.length t.keypoints.length := by
  have hlen : 0 < (elemMatrix sm w K lab kp t).length := by
    rw [elemMatrix_length]
    exact h
  rw [List.getD_eq_getElem _ _ hlen]
  simp [elemMatrix]

/-! ### Example inputs reused by the witnesses -/

/-- A concrete stand-in for the row-wise softmax: on each of the all-equal
logit rows used in the examples below, the true softmax returns the uniform
distribution, which this function returns exactly. -/
def smHalf : List ℚ → List ℚ := fun l => l.map (fun _ => 1 / 2)

/-- The identity row map, used where a witness only needs some row-wise
probability function. -/
def smId : List ℚ → List ℚ := fun l => l

/-- Example predictions: one batch element, one query, one class, K = 1. -/
def exOut1 : Outputs := ⟨[[[1]]], [[[0, 0, 1, 2, 1]]]⟩

/-- Example targets matching `exOut1`. -/
def exTgt1 : List Target := [⟨[0], [[0, 0, 3, 5, 1]]⟩]

/-! ### Claim theorems -/

/-- C1: for every prediction `i` and target `j`, the total matching cost
`C(i,j)` equals `cost_class` times the classification term (minus the
post-softmax probability of the target's class) plus `0.5` times the
visibility-masked L1 delta-offset term plus `0.2` times the squared
Euclidean distance of the visibility vectors plus `0.5` times the squared
Euclidean distance of the centers plus `4` times the visibility-masked L1
absolute-position term, the four non-class weights being the fixed
constants of `HungarianMatcher.__init__`. -/
theorem claim1_cost_entry_formula (sm : List ℚ → List ℚ) (w : ℚ) (K : ℕ)
    (outputs : Outputs) (targets : List Target)
    (hN : outputs.labels.flatten.length = outputs.keypoints.flatten.length)
    (hT : ((targets.map Target.labels).flatten).length
        = ((targets.map Target.keypoints).flatten).length)
    (i j : ℕ) (hi : i < outputs.labels.flatten.length)
    (hj : j < ((targets.map Target.labels).flatten).length) :
    ((costMatrix sm w K outputs targets).getD i []).getD j 0
      = w * (-((sm (outputs.labels.flatten.getD i [])).getD
            (((targets.map Target.labels).flatten).getD j 0) 0))
        + (1 / 2) * maskedL1 (deltasOf K (outputs.keypoints.flatten.getD i []))
            (deltasOf K (((targets.map Target.keypoints).flatten).getD j []))
            (dup2 (visOf K (((targets.map Target.keypoints).flatten).getD j [])))
        + (1 / 5) * sqDist (visOf K (outputs.keypoints.flatten.getD i []))
            (visOf K (((targets.map Target.keypoints).flatten).getD j []))
        + (1 / 2) * sqDist (centerOf (outputs.keypoints.flatten.getD i []))
            (centerOf (((targets.map Target.keypoints).flatten).getD j []))
        + 4 * maskedL1 (absOf K (outputs.keypoints.flatten.getD i []))
            (absOf K (((targets.map Target.keypoints).flatten).getD j []))
            (dup2 (visOf K (((targets.map Target.keypoints).flatten).getD j []))) := by
  rw [costMatrix_canon sm w K outputs targets hN hT]
  have hi' : i < ((outputs.labels.flatten.zip outputs.keypoints.flatten).map (fun p =>
      (((targets.map Target.labels).flatten).zip
          ((targets.map Target.keypoints).flatten)).map (fun t =>
        pairCost sm w K p.1 p.2 t.1 t.2))).length := by
    simp only [List.length_map, List.length_zip]
    omega
  rw [List.getD_eq_getElem _ _ hi', List.getElem_map]
  have hiz : i < (outputs.labels.flatten.zip outputs.keypoints.flatten).length := by
    simpa using hi'
  have hj' : j < ((((targets.map Target.labels).flatten).zip
      ((targets.map Target.keypoints).flatten)).map (fun t =>
        pairCost sm w K ((outputs.labels.flatten.zip outputs.keypoints.flatten)[i]).1
          ((outputs.labels.flatten.zip outputs.keypoints.flatten)[i]).2 t.1 t.2)).length := by
    simp only [List.length_map, List.length_zip]
    omega
  rw [List.getD_eq_getElem _ _ hj', List.getElem_map]
  simp only [List.getElem_zip]
  rw [List.getD_eq_getElem _ _ hi,
    List.getD_eq_getElem _ _ (by omega : i < outputs.keypoints.flatten.length),
    List.getD_eq_getElem _ _ hj,
    List.getD_eq_getElem _ _ (by omega : j < ((targets.map Target.keypoints).flatten).length)]
  rw [pairCost, l_deltas, l_vis, l_ctr, l_abs]
  ring

theorem claim1_cost_entry_formula_witness :
    ((costMatrix smId 1 1 exOut1 exTgt1).getD 0 []).getD 0 0 = 43 / 2 := by
  rw [claim1_cost_entry_formula smId 1 1 exOut1 exTgt1 (by decide) (by decide) 0 0
    (by decide) (by decide)]
  norm_num [smId, exOut1, exTgt1, maskedL1, dotAbs, vecMul, vecAdd, sqDist, deltasOf,
    visOf, centerOf, absOf, expandCenter, dup2]

/-- C2: for every rectangular rational cost matrix (entries may be
negative), the solver returns an assignment of size
`min(num_queries, num_targets)` whose total cost is minimal over all
assignments of that size; as a pure function of the matrix it is
deterministic for identical input. -/
theorem claim2_lsa_exact (M : List (List ℚ)) (m : ℕ)
    (hM : ∀ r ∈ M, r.length = m) :
    ((linear_sum_assignment M).1.length = min M.length m
      ∧ (linear_sum_assignment M).2.length = min M.length m)
    ∧ ∀ rs cs : List ℕ, rs.length = min M.length m → cs.length = min M.length m →
        rs.Nodup → cs.Nodup → (∀ r ∈ rs, r < M.length) → (∀ c ∈ cs, c < m) →
        assignCost M (linear_sum_assignment M).1 (linear_sum_assignment M).2
          ≤ assignCost M rs cs := by
  cases M with
  | nil =>
    have h0 : linear_sum_assignment [] = ([], []) := rfl
    refine ⟨⟨by rw [h0]; simp, by rw [h0]; simp⟩, ?_⟩
    intro rs cs h1 h2 _ _ _ _
    have hrs : rs = [] := List.eq_nil_of_length_eq_zero (by simpa using h1)
    have hcs : cs = [] := List.eq_nil_of_length_eq_zero (by simpa using h2)
    subst hrs
    subst hcs
    rw [h0]
  | cons r M' =>
    have hr : ((r :: M').getD 0 []) = r := rfl
    have hm' : r.length = m := hM r (by simp)
    have V := lsa_valid (r :: M')
    rw [hr, hm'] at V
    refine ⟨⟨V.1, V.2.1⟩, ?_⟩
    intro rs cs h1 h2 h3 h4 h5 h6
    have hva : ValidAssign (r :: M').length (((r :: M').getD 0 []).length)
        (min (r :: M').length (((r :: M').getD 0 []).length)) (rs, cs) := by
      rw [hr, hm']
      exact ⟨h1, h2, h3, h4, h5, h6⟩
    exact lsa_min (r :: M') (rs, cs) hva

theorem claim2_lsa_exact_witness :
    (linear_sum_assignment [[0, 1], [10, 0]]).1.length = 2
      ∧ assignCost [[0, 1], [10, 0]] (linear_sum_assignment [[0, 1], [10, 0]]).1
          (linear_sum_assignment [[0, 1], [10, 0]]).2
        ≤ assignCost [[0, 1], [10, 0]] [0, 1] [0, 1] := by
  constructor
  · have h := (claim2_lsa_exact [[0, 1], [10, 0]] 2 (by decide)).1.1
    simpa using h
  · exact (claim2_lsa_exact [[0, 1], [10, 0]] 2 (by decide)).2 [0, 1] [0, 1]
      (by decide) (by decide) (by decide) (by decide) (by decide) (by decide)

/-- C3: for every input and every batch element, the returned pair of index
sequences has both lengths equal to `min(num_queries, num_targets)`, with
no duplicate in either sequence, prediction indices all below
`num_queries` and target indices all below that element's target count. -/
theorem claim3_result_invariants (sm : List ℚ → List ℚ) (w : ℚ) (K : ℕ)
    (outputs : Outputs) (targets : List Target)
    (hbsK : outputs.keypoints.length = outputs.labels.length)
    (hbsT : targets.length = outputs.labels.length)
    (hnql : ∀ l ∈ outputs.labels, l.length = (outputs.labels.getD 0 []).length)
    (hnqk : ∀ k ∈ outputs.keypoints, k.length = (outputs.labels.getD 0 []).length)
    (halign : ∀ t ∈ targets, t.labels.length = t.keypoints.length)
    (b : ℕ) (hb : b < targets.length) :
    ValidAssign (outputs.labels.getD 0 []).length
      ((targets.getD b ⟨[], []⟩).keypoints.length)
      (min (outputs.labels.getD 0 []).length
        ((targets.getD b ⟨[], []⟩).keypoints.length))
      ((forward_ sm w K outputs targets).getD b ([], [])) := by
  rw [forward_eq_elem sm w K outputs targets hbsK hbsT hnql hnqk halign]
  have hbr : b < ((List.range targets.length).map (fun b =>
      linear_sum_assignment (elemMatrix sm w K (outputs.labels.getD b [])
        (outputs.keypoints.getD b []) (targets.getD b ⟨[], []⟩)))).length := by
    simpa using hb
  rw [List.getD_eq_getElem _ _ hbr, List.getElem_map, List.getElem_range]
  have hbl : b < outputs.labels.length := by omega
  have hbk : b < outputs.keypoints.length := by omega
  have hlab : (outputs.labels.getD b []).length = (outputs.labels.getD 0 []).length := by
    rw [List.getD_eq_getElem _ _ hbl]
    exact hnql _ (List.getElem_mem hbl)
  have hkp : (outputs.keypoints.getD b []).length = (outputs.labels.getD 0 []).length := by
    rw [List.getD_eq_getElem _ _ hbk]
    exact hnqk _ (List.getElem_mem hbk)
  have htal : (targets.getD b ⟨[], []⟩).labels.length
      = (targets.getD b ⟨[], []⟩).keypoints.length := by
    rw [List.getD_eq_getElem _ _ hb]
    exact halign _ (List.getElem_mem hb)
  have V := lsa_valid (elemMatrix sm w K (outputs.labels.getD b [])
    (outputs.keypoints.getD b []) (targets.getD b ⟨[], []⟩))
  rw [elemMatrix_length, hlab, hkp, Nat.min_self] at V
  unfold ValidAssign at V ⊢
  by_cases hnq : (outputs.labels.getD 0 []).length = 0
  · rw [hnq] at V ⊢
    simp only [Nat.zero_min] at V ⊢
    obtain ⟨V1, V2, V3, V4, V5, V6⟩ := V
    refine ⟨V1, V2, V3, V4, V5, ?_⟩
    intro c hc
    have hnil : (linear_sum_assignment (elemMatrix sm w K (outputs.labels.getD b [])
        (outputs.keypoints.getD b []) (targets.getD b ⟨[], []⟩))).2 = [] :=
      List.eq_nil_of_length_eq_zero V2
    rw [hnil] at hc
    simp at hc
  · have hpos : 0 < min (outputs.labels.getD b []).length
        (outputs.keypoints.getD b []).length := by
      rw [hlab, hkp, Nat.min_self]
      omega
    rw [elemMatrix_firstrow sm w K _ _ _ hpos, htal, Nat.min_self] at V
    exact V

theorem forward_single (sm : List ℚ → List ℚ) (w : ℚ) (K : ℕ)
    (lab kp : List (List ℚ)) (t : Target)
    (hkl : kp.length = lab.length)
    (hal : t.labels.length = t.keypoints.length) :
    forward_ sm w K ⟨[lab], [kp]⟩ [t]
      = [linear_sum_assignment (elemMatrix sm w K lab kp t)] := by
  rw [forward_eq_elem sm w K ⟨[lab], [kp]⟩ [t] (by simp) (by simp)
    (by intro l hl; simp at hl; simp [hl]) (by intro k hk; simp at hk; simp [hk, hkl])
    (by intro t' ht'; simp at ht'; simp [ht', hal])]
  have h1 : List.range 1 = [0] := rfl
  simp only [List.length_singleton]
  rw [h1]
  simp [List.getD_cons_zero]

/-- C4 (amended): provided every batch element has at least one target (and
the inputs are shape-consistent), the per-element `splited` mode and the
joint mode of `HungarianMatcher.forward` produce identical lists of
assignment results. -/
theorem claim4_modes_agree (sm : List ℚ → List ℚ) (w : ℚ) (K : ℕ)
    (outputs : Outputs) (targets : List Target)
    (hbsK : outputs.keypoints.length = outputs.labels.length)
    (hbsT : targets.length = outputs.labels.length)
    (hnql : ∀ l ∈ outputs.labels, l.length = (outputs.labels.getD 0 []).length)
    (hnqk : ∀ k ∈ outputs.keypoints, k.length = (outputs.labels.getD 0 []).length)
    (halign : ∀ t ∈ targets, t.labels.length = t.keypoints.length)
    (hne : ∀ t ∈ targets, 1 ≤ t.keypoints.length) :
    forward sm w K true outputs targets = forward sm w K false outputs targets := by
  simp only [forward, Bool.not_true, Bool.not_false, if_true]
  rw [if_neg (by simp)]
  rw [forward_eq_elem sm w K outputs targets hbsK hbsT hnql hnqk halign, ← hbsT]
  apply List.map_congr_left
  intro b hbmem
  have hb : b < targets.length := List.mem_range.1 hbmem
  have hbl : b < outputs.labels.length := by omega
  have hbk : b < outputs.keypoints.length := by omega
  have hkl : (outputs.keypoints.getD b []).length = (outputs.labels.getD b []).length := by
    rw [List.getD_eq_getElem _ _ hbk, List.getD_eq_getElem _ _ hbl]
    rw [hnqk _ (List.getElem_mem hbk), hnql _ (List.getElem_mem hbl)]
  have hal : (targets.getD b ⟨[], []⟩).labels.length
      = (targets.getD b ⟨[], []⟩).keypoints.length := by
    rw [List.getD_eq_getElem _ _ hb]
    exact halign _ (List.getElem_mem hb)
  rw [forward_single sm w K _ _ _ hkl hal]
  simp

/-! ### Which input shapes survive the tensor operations of `forward_`

The list model above is total, but the tensor operations of the source
raise `RuntimeError` when their shape preconditions fail (PyTorch
broadcasting requires each paired dimension to be equal or `1`;
`view(-1, d)` requires divisibility; `torch.cat` requires a non-empty
tensor list; `torch.cdist` requires equal last dimensions).  `shapesValid`
records, conjunct by conjunct, the precondition of each operation of
`forward_` in execution order, as a function of the keypoint-encoding
widths `Dp` (predictions) and `Dt` (targets), the flattened row counts
`N = bs*num_queries` and `T = total targets`, and `K = num_keypoints`. -/

/-- PyTorch broadcasting accepts a pair of dimensions iff they are equal or
one of them is `1`. -/
def bcOK (a b : ℕ) : Bool := a == b || a == 1 || b == 1

/-- The dimension resulting from broadcasting a pair accepted by `bcOK`. -/
def bcRes (a b : ℕ) : ℕ := if a = 1 then b else a

/-- Whether every tensor operation of `forward_` accepts the given shapes
(so the call returns instead of raising).  Slice widths: the center slice
has width `min D 2`, the delta slice `min (D-2) 2K`, the visibility slice
`D-2-2K` (truncated subtraction models the clamping of Python slices). -/
def shapesValid (K Dp Dt N T : ℕ) : Bool :=
  let wCp := min Dp 2
  let wCt := min Dt 2
  let zp := min (Dp - 2) (2 * K)
  let zt := min (Dt - 2) (2 * K)
  let vp := Dp - 2 - 2 * K
  let vt := Dt - 2 - 2 * K
  -- matcher.py:104/107: `torch.cat` over one column per target needs T ≥ 1
  (1 ≤ T) &&
  -- matcher.py:89: `C_gt_expand = repeat_interleave(C_gt.unsqueeze(1), K, 1).view(-1, 2K)`
  ((T * K * wCt) % (2 * K) == 0) &&
  (let Rt := T * K * wCt / (2 * K)
   -- matcher.py:90: `A_gt = C_gt_expand + Z_gt` broadcasts both dimensions
   bcOK Rt T && bcOK (2 * K) zt &&
   (let WAt := bcRes (2 * K) zt
    let RAt := bcRes Rt T
    -- matcher.py:92: `C_pred_expand` view
    ((N * K * wCp) % (2 * K) == 0) &&
    (let Rp := N * K * wCp / (2 * K)
     -- matcher.py:93: `A_pred = C_pred_expand + Z_pred`
     bcOK Rp N && bcOK (2 * K) zp &&
     (let WAp := bcRes (2 * K) zp
      let RAp := bcRes Rp N
      -- matcher.py:104: `Z_pred * v`, `z_gt * v` broadcasts; `cdist` equal widths
      bcOK zp (2 * vt) && bcOK zt (2 * vt) && (bcRes zp (2 * vt) == bcRes zt (2 * vt)) &&
      -- matcher.py:105: `cdist(V_pred, V_gt)` equal widths
      (vp == vt) &&
      -- matcher.py:106: `cdist(C_pred, C_gt)` equal widths
      (min Dp 2 == min Dt 2) &&
      -- matcher.py:107: `A_pred * v`, `a_gt * v` broadcasts; `cdist` equal widths
      bcOK WAp (2 * vt) && bcOK WAt (2 * vt) &&
        (bcRes WAp (2 * vt) == bcRes WAt (2 * vt)) &&
      -- matcher.py:109-111: the five terms are summed with broadcasting;
      -- `abs_loss` has RAp rows and `min T RAt` columns (`zip(Vgt_, A_gt)`)
      bcOK N RAp && bcOK T (min T RAt) &&
      -- matcher.py:112: `C.view(bs, num_queries, -1)` divisibility
      ((bcRes N RAp * bcRes T (min T RAt)) % N == 0) &&
      -- matcher.py:115: `C.split(sizes, -1)` needs `sum sizes` = last dimension
      (T == bcRes N RAp * bcRes T (min T RAt) / N)))))

/-- Whether the joint-mode `forward_` call on uniformly-shaped inputs
raises no error, widths read off the first rows. -/
def jointRuns (K : ℕ) (outputs : Outputs) (targets : List Target) : Bool :=
  shapesValid K ((outputs.keypoints.flatten.getD 0 []).length)
    ((((targets.map Target.keypoints).flatten).getD 0 []).length)
    outputs.keypoints.flatten.length
    ((targets.map Target.keypoints).flatten).length

/-- Whether the default per-element mode of `forward` raises no error: the
loop of `matcher.py` lines 40-46 invokes `forward_` once per batch element
on one-element slices, so every one of those calls must pass its shape
checks. -/
def splitRuns (K : ℕ) (outputs : Outputs) (targets : List Target) : Bool :=
  (List.range outputs.labels.length).all (fun b =>
    jointRuns K ⟨[outputs.labels.getD b []], [outputs.keypoints.getD b []]⟩
      [targets.getD b ⟨[], []⟩])

/-- Example predictions with two batch elements, one query each, K = 1. -/
def exOut2 : Outputs :=
  ⟨[[[1]], [[1]]], [[[0, 0, 1, 2, 1]], [[0, 0, 1, 2, 1]]]⟩

/-- Example targets for `exOut2` whose second batch element has an empty
target set. -/
def exTgt2 : List Target := [⟨[0], [[0, 0, 3, 5, 1]]⟩, ⟨[], []⟩]

/-- Example targets for `exOut2` with one target in every batch element. -/
def exTgt3 : List Target := [⟨[0], [[0, 0, 3, 5, 1]]⟩, ⟨[0], [[1, 1, 0, 0, 2]]⟩]

set_option maxHeartbeats 1600000 in
/-- C8: the tensor operations of `forward_` accept the input shapes exactly
when both keypoint-encoding widths equal `2+3K`; every other width makes
some operation raise before any assignment is returned, so the call aborts
rather than silently truncating or padding. -/
theorem claim8_shape_error (K Dp Dt N T : ℕ) (hK : 1 ≤ K) (hN : 1 ≤ N) (hT : 1 ≤ T) :
    shapesValid K Dp Dt N T = true ↔ (Dp = 2 + 3 * K ∧ Dt = 2 + 3 * K) := by
  have h2K : ¬(2 * K = 1) := by omega
  constructor
  · intro h
    simp only [shapesValid, bcOK, bcRes, Bool.and_eq_true, Bool.or_eq_true,
      beq_iff_eq, decide_eq_true_eq, h2K, if_false, if_neg] at h
    have hBIG := h.2.2.2.2
    have hc4 : Dp - 2 - 2 * K = Dt - 2 - 2 * K := hBIG.1.1.1.1.1.1.1.1.2
    have hc6 := hBIG.1.1.1.1.1.1.2
    rcases hc6 with (h6 | h6) | h6
    · exact ⟨by omega, by omega⟩
    · exact h6.elim
    · exact ⟨by omega, by omega⟩
  · rintro ⟨rfl, rfl⟩
    have h2Kpos : 0 < 2 * K := by omega
    have hNpos : 0 < N := hN
    have e1 : min (2 + 3 * K) 2 = 2 := by omega
    have e2 : min (2 + 3 * K - 2) (2 * K) = 2 * K := by omega
    have e3 : 2 + 3 * K - 2 - 2 * K = K := by omega
    have e4 : T * K * 2 = 2 * K * T := by ring
    have e5 : N * K * 2 = 2 * K * N := by ring
    unfold shapesValid
    rw [e1, e2, e3]
    dsimp only
    rw [e4, e5, Nat.mul_mod_right, Nat.mul_div_cancel_left T h2Kpos,
      Nat.mul_div_cancel_left N h2Kpos]
    simp only [bcOK, bcRes, ite_self, Nat.min_self, Nat.mul_mod_right,
      Nat.mul_div_cancel_left T hNpos, Bool.and_eq_true, Bool.or_eq_true, beq_iff_eq,
      decide_eq_true_eq]
    simp [hT]

theorem claim8_shape_error_witness : shapesValid 24 3 3 1 1 = false := by
  have h := claim8_shape_error 24 3 3 1 1 (by decide) (by decide) (by decide)
  cases hsv : shapesValid 24 3 3 1 1
  · rfl
  · exact absurd (h.1 hsv) (by decide)

/-- C4 is false as stated: at this concrete batch whose second element has
no targets, joint mode passes every tensor-shape precondition and returns a
result list, while the default per-element mode's second `forward_` call
hands `torch.cat` an empty tensor list and raises, so the two modes do not
produce identical assignment-result lists on every input batch. -/
theorem claim4_counterexample :
    jointRuns 1 exOut2 exTgt2 = true ∧ splitRuns 1 exOut2 exTgt2 = false := by
  exact ⟨by decide, by decide⟩

theorem claim4_modes_agree_witness :
    forward smId 1 1 true exOut2 exTgt3 = forward smId 1 1 false exOut2 exTgt3 :=
  claim4_modes_agree smId 1 1 exOut2 exTgt3 (by decide) (by decide) (by decide)
    (by decide) (by decide) (by decide)

theorem lsa_of_empty_cols (M : List (List ℚ)) (h : ∀ r ∈ M, r = []) :
    linear_sum_assignment M = ([], []) := by
  have hm : (M.getD 0 []).length = 0 := by
    cases M with
    | nil => rfl
    | cons r M' =>
      have hr : r = [] := h r (by simp)
      simp [hr]
  have V := lsa_valid M
  unfold ValidAssign at V
  rw [hm, Nat.min_zero] at V
  have h1 : (linear_sum_assignment M).1 = [] := List.eq_nil_of_length_eq_zero V.1
  have h2 : (linear_sum_assignment M).2 = [] := List.eq_nil_of_length_eq_zero V.2.1
  rw [Prod.ext_iff]
  exact ⟨h1, h2⟩

/-- C5 (amended): in joint (non-`splited`) mode, a batch element with an
empty target set yields the empty index pair `([], [])` — while in the
default per-element mode the very same element makes the `forward_` call
raise (see the counterexample). -/
theorem claim5_joint_empty (sm : List ℚ → List ℚ) (w : ℚ) (K : ℕ)
    (outputs : Outputs) (targets : List Target)
    (hbsK : outputs.keypoints.length = outputs.labels.length)
    (hbsT : targets.length = outputs.labels.length)
    (hnql : ∀ l ∈ outputs.labels, l.length = (outputs.labels.getD 0 []).length)
    (hnqk : ∀ k ∈ outputs.keypoints, k.length = (outputs.labels.getD 0 []).length)
    (halign : ∀ t ∈ targets, t.labels.length = t.keypoints.length)
    (b : ℕ) (hb : b < targets.length)
    (hempty : targets.getD b ⟨[], []⟩ = ⟨[], []⟩) :
    (forward sm w K false outputs targets).getD b ([], []) = ([], []) := by
  have hf : forward sm w K false outputs targets = forward_ sm w K outputs targets := rfl
  rw [hf]
  rw [forward_eq_elem sm w K outputs targets hbsK hbsT hnql hnqk halign]
  have hbr : b < ((List.range targets.length).map (fun b =>
      linear_sum_assignment (elemMatrix sm w K (outputs.labels.getD b [])
        (outputs.keypoints.getD b []) (targets.getD b ⟨[], []⟩)))).length := by
    simpa using hb
  rw [List.getD_eq_getElem _ _ hbr, List.getElem_map, List.getElem_range]
  apply lsa_of_empty_cols
  intro r hr
  rw [hempty] at hr
  simp only [elemMatrix, List.mem_map] at hr
  obtain ⟨p, -, hp⟩ := hr
  simp at hp
  exact hp

/-- C5 is false as stated: the default (`splited = True`) matcher on this
batch, whose second element has zero targets, invokes `forward_` on that
element alone; with zero total targets the per-target column lists of
`offset_loss`/`abs_loss` are empty and `torch.cat` raises, instead of the
claimed error-free `([], [])` result. -/
theorem claim5_counterexample :
    exTgt2.getD 1 ⟨[], []⟩ = ⟨[], []⟩ ∧ splitRuns 1 exOut2 exTgt2 = false := by
  exact ⟨by decide, by decide⟩

theorem claim5_joint_empty_witness :
    (forward smId 1 1 false exOut2 exTgt2).getD 1 ([], []) = ([], []) :=
  claim5_joint_empty smId 1 1 exOut2 exTgt2 (by decide) (by decide) (by decide)
    (by decide) (by decide) 1 (by decide) (by decide)

theorem claim3_result_invariants_witness :
    ValidAssign (exOut1.labels.getD 0 []).length
      ((exTgt1.getD 0 ⟨[], []⟩).keypoints.length)
      (min (exOut1.labels.getD 0 []).length ((exTgt1.getD 0 ⟨[], []⟩).keypoints.length))
      ((forward_ smId 1 1 exOut1 exTgt1).getD 0 ([], [])) :=
  claim3_result_invariants smId 1 1 exOut1 exTgt1 (by decide) (by decide) (by decide)
    (by decide) (by decide) 0 (by decide)

theorem expandCenter_length (K : ℕ) (c : List ℚ) :
    (expandCenter K c).length = K * c.length := by
  simp [expandCenter, List.length_flatten, List.map_replicate, List.sum_replicate,
    smul_eq_mul]

theorem expandCenter_getD (c : List ℚ) (hc : c.length = 2) :
    ∀ (K k d : ℕ), k < K → d < 2 →
      (expandCenter K c).getD (2 * k + d) 0 = c.getD d 0 := by
  intro K
  induction K with
  | zero => intro k d hk _; exact absurd hk (Nat.not_lt_zero k)
  | succ K ih =>
    intro k d hk hd
    have hsplit : expandCenter (K + 1) c = c ++ expandCenter K c := by
      rw [expandCenter, List.replicate_succ, List.flatten_cons]
      rfl
    cases k with
    | zero =>
      rw [hsplit]
      have hdlt : (2 * 0 + d) < c.length := by omega
      rw [List.getD_eq_getElem _ _ (by simp; omega), List.getElem_append_left hdlt,
        List.getD_eq_getElem _ _ (by omega)]
      simp
    | succ k =>
      rw [hsplit]
      have hidx : 2 * (k + 1) + d = c.length + (2 * k + d) := by omega
      have hlen : (expandCenter K c).length = 2 * K := by
        rw [expandCenter_length, hc]
        ring
      have hin : c.length + (2 * k + d) < (c ++ expandCenter K c).length := by
        simp [hlen]
        omega
      rw [hidx, List.getD_eq_getElem _ _ hin, List.getElem_append_right (by omega)]
      rw [← List.getD_eq_getElem (expandCenter K c) 0 (by simp [hlen]; omega)]
      simp only [hc]
      rw [show 2 + (2 * k + d) - 2 = 2 * k + d by omega]
      exact ih k d (by omega) hd

/-- C6: on a keypoint-encoding row of length `2+3K`, the decomposition of
`forward_` reads the center from offsets `[0,2)`, the deltas from
`[2,2+2K)` and the visibility from `[2+2K,2+3K)`, and the absolute
positions are the center pair replicated `K` times contiguously plus the
deltas: entry `2k+d` of `absOf` is `center[d] + delta[2k+d]`.  Both
predictions and targets are decomposed by these same functions in
`costMatrix`. -/
theorem claim6_decomposition (K : ℕ) (kp : List ℚ) (hkp : kp.length = 2 + 3 * K) :
    ((centerOf kp).length = 2 ∧ ∀ d < 2, (centerOf kp).getD d 0 = kp.getD d 0)
    ∧ ((deltasOf K kp).length = 2 * K
        ∧ ∀ i < 2 * K, (deltasOf K kp).getD i 0 = kp.getD (2 + i) 0)
    ∧ ((visOf K kp).length = K
        ∧ ∀ i < K, (visOf K kp).getD i 0 = kp.getD (2 + 2 * K + i) 0)
    ∧ ((absOf K kp).length = 2 * K
        ∧ ∀ k < K, ∀ d < 2,
            (absOf K kp).getD (2 * k + d) 0 = kp.getD d 0 + kp.getD (2 + 2 * k + d) 0) := by
  have hc : (centerOf kp).length = 2 := by
    simp [centerOf]
    omega
  have hz : (deltasOf K kp).length = 2 * K := by
    simp [deltasOf]
    omega
  have hv : (visOf K kp).length = K := by
    simp [visOf]
    omega
  have habs : (absOf K kp).length = 2 * K := by
    simp [absOf, vecAdd, expandCenter_length, hc, hz]
    omega
  refine ⟨⟨hc, ?_⟩, ⟨hz, ?_⟩, ⟨hv, ?_⟩, ⟨habs, ?_⟩⟩
  · intro d hd
    rw [List.getD_eq_getElem _ _ (by omega), List.getD_eq_getElem _ _ (by omega)]
    simp [centerOf]
  · intro i hi
    rw [List.getD_eq_getElem _ _ (by omega), List.getD_eq_getElem _ _ (by omega)]
    simp [deltasOf]
  · intro i hi
    rw [List.getD_eq_getElem _ _ (by omega), List.getD_eq_getElem _ _ (by omega)]
    simp [visOf]
  · intro k hk d hd
    have hidx : 2 * k + d < (absOf K kp).length := by omega
    rw [List.getD_eq_getElem _ _ hidx]
    have hexp : (expandCenter K (centerOf kp)).length = 2 * K := by
      rw [expandCenter_length, hc]
      ring
    simp only [absOf, vecAdd]
    rw [List.getElem_zipWith]
    rw [← List.getD_eq_getElem (expandCenter K (centerOf kp)) 0 (by omega),
      ← List.getD_eq_getElem (deltasOf K kp) 0 (by omega)]
    rw [expandCenter_getD (centerOf kp) hc K k d hk hd]
    have h1 : (centerOf kp).getD d 0 = kp.getD d 0 := by
      rw [List.getD_eq_getElem _ _ (by omega), List.getD_eq_getElem _ _ (by omega)]
      simp [centerOf]
    have h2 : (deltasOf K kp).getD (2 * k + d) 0 = kp.getD (2 + (2 * k + d)) 0 := by
      rw [List.getD_eq_getElem _ _ (by omega), List.getD_eq_getElem _ _ (by omega)]
      simp [deltasOf]
    rw [h1, h2]
    congr 2
    omega

theorem claim6_decomposition_witness :
    ((centerOf [0, 0, 1, 2, 1]).length = 2
      ∧ ∀ d < 2, (centerOf [0, 0, 1, 2, 1]).getD d 0 = [0, 0, 1, 2, 1].getD d 0)
    ∧ ((deltasOf 1 [0, 0, 1, 2, 1]).length = 2 * 1
        ∧ ∀ i < 2 * 1, (deltasOf 1 [0, 0, 1, 2, 1]).getD i 0
            = [0, 0, 1, 2, 1].getD (2 + i) 0)
    ∧ ((visOf 1 [0, 0, 1, 2, 1]).length = 1
        ∧ ∀ i < 1, (visOf 1 [0, 0, 1, 2, 1]).getD i 0
            = [0, 0, 1, 2, 1].getD (2 + 2 * 1 + i) 0)
    ∧ ((absOf 1 [0, 0, 1, 2, 1]).length = 2 * 1
        ∧ ∀ k < 1, ∀ d < 2, (absOf 1 [0, 0, 1, 2, 1]).getD (2 * k + d) 0
            = [0, 0, 1, 2, 1].getD d 0 + [0, 0, 1, 2, 1].getD (2 + 2 * k + d) 0) :=
  claim6_decomposition 1 [0, 0, 1, 2, 1] (by decide)

theorem dotAbs_zero (a b : List ℚ) (ha : ∀ x ∈ a, x = 0) (hb : ∀ x ∈ b, x = 0) :
    dotAbs a b = 0 := by
  induction a generalizing b with
  | nil => simp [dotAbs]
  | cons x a ih =>
    cases b with
    | nil => simp [dotAbs]
    | cons y b =>
      have hx : x = 0 := ha x (by simp)
      have hy : y = 0 := hb y (by simp)
      have hrest : dotAbs a b = 0 :=
        ih b (fun z hz => ha z (List.mem_cons_of_mem _ hz))
          (fun z hz => hb z (List.mem_cons_of_mem _ hz))
      simp only [dotAbs, List.zipWith_cons_cons, List.sum_cons] at hrest ⊢
      rw [hx, hy, hrest]
      simp

theorem vecMul_zero (a v : List ℚ) (h : ∀ x ∈ v, x = 0) :
    ∀ y ∈ vecMul a v, y = 0 := by
  induction a generalizing v with
  | nil => simp [vecMul]
  | cons x a ih =>
    cases v with
    | nil => simp [vecMul]
    | cons w v =>
      intro y hy
      simp only [vecMul, List.zipWith_cons_cons, List.mem_cons] at hy
      rcases hy with rfl | hy
      · rw [h w (by simp)]
        ring
      · exact ih v (fun z hz => h z (List.mem_cons_of_mem _ hz)) y hy

theorem dup2_zero (v : List ℚ) (h : ∀ x ∈ v, x = 0) : ∀ x ∈ dup2 v, x = 0 := by
  intro x hx
  simp only [dup2, List.mem_flatten, List.mem_map] at hx
  obtain ⟨l, ⟨z, hz, rfl⟩, hxl⟩ := hx
  have := h z hz
  simp at hxl
  rcases hxl with rfl | rfl <;> exact this

/-- C7: for any target whose ground-truth visibility vector is all-zero,
the visibility-masked delta-offset term and the visibility-masked
absolute-position term are `0` for every prediction, whatever the target's
deltas and the predicted deltas are — perturbing the deltas cannot change
either contribution. -/
theorem claim7_zero_visibility (K : ℕ) (pkp tkp : List ℚ)
    (hvis : ∀ x ∈ visOf K tkp, x = 0) :
    maskedL1 (deltasOf K pkp) (deltasOf K tkp) (dup2 (visOf K tkp)) = 0
    ∧ maskedL1 (absOf K pkp) (absOf K tkp) (dup2 (visOf K tkp)) = 0 := by
  have hd : ∀ x ∈ dup2 (visOf K tkp), x = 0 := dup2_zero _ hvis
  constructor
  · exact dotAbs_zero _ _ (vecMul_zero _ _ hd) (vecMul_zero _ _ hd)
  · exact dotAbs_zero _ _ (vecMul_zero _ _ hd) (vecMul_zero _ _ hd)

theorem claim7_zero_visibility_witness :
    maskedL1 (deltasOf 1 [0, 0, 9, 9, 7]) (deltasOf 1 [1, 2, 3, 5, 0])
        (dup2 (visOf 1 [1, 2, 3, 5, 0])) = 0
    ∧ maskedL1 (absOf 1 [0, 0, 9, 9, 7]) (absOf 1 [1, 2, 3, 5, 0])
        (dup2 (visOf 1 [1, 2, 3, 5, 0])) = 0 :=
  claim7_zero_visibility 1 [0, 0, 9, 9, 7] [1, 2, 3, 5, 0] (by decide)

/-- C10: with a nonnegative ground-truth visibility vector `v`, the
visibility-masked L1 pattern used for the delta-offset and
absolute-position terms decomposes per keypoint as `v k` times the L1
distance of that keypoint's `(x, y)` coordinates — both rows are multiplied
by the doubled mask before the distance, so the visibility acts as a linear
per-keypoint weight (a code of `2` contributes twice a code of `1`), not as
a binarized mask. -/
theorem claim10_linear_visibility (v zp zg : List ℚ)
    (hzp : zp.length = 2 * v.length) (hzg : zg.length = 2 * v.length)
    (hv : ∀ x ∈ v, 0 ≤ x) :
    maskedL1 zp zg (dup2 v)
      = ∑ k ∈ Finset.range v.length,
          v.getD k 0 * (|zp.getD (2 * k) 0 - zg.getD (2 * k) 0|
            + |zp.getD (2 * k + 1) 0 - zg.getD (2 * k + 1) 0|) := by
  induction v generalizing zp zg with
  | nil =>
    have hzp0 : zp = [] := List.eq_nil_of_length_eq_zero (by simpa using hzp)
    have hzg0 : zg = [] := List.eq_nil_of_length_eq_zero (by simpa using hzg)
    subst hzp0
    subst hzg0
    simp [maskedL1, dotAbs, vecMul, dup2]
  | cons w v ih =>
    rcases zp with _ | ⟨a, _ | ⟨b, zp2⟩⟩
    · exfalso
      simp at hzp
    · exfalso
      simp at hzp
      omega
    rcases zg with _ | ⟨c, _ | ⟨d, zg2⟩⟩
    · exfalso
      simp at hzg
    · exfalso
      simp at hzg
      omega
    have hzp2 : zp2.length = 2 * v.length := by
      simp only [List.length_cons] at hzp
      omega
    have hzg2 : zg2.length = 2 * v.length := by
      simp only [List.length_cons] at hzg
      omega
    have hw : 0 ≤ w := hv w (by simp)
    have hrest := ih zp2 zg2 hzp2 hzg2 (fun x hx => hv x (List.mem_cons_of_mem _ hx))
    have hd2 : dup2 (w :: v) = w :: w :: dup2 v := rfl
    have hL : maskedL1 (a :: b :: zp2) (c :: d :: zg2) (dup2 (w :: v))
        = |a * w - c * w| + (|b * w - d * w| + maskedL1 zp2 zg2 (dup2 v)) := by
      rw [hd2]
      simp [maskedL1, vecMul, dotAbs]
    rw [hL, hrest]
    simp only [List.length_cons]
    rw [Finset.sum_range_succ']
    have hfirst : (w :: v).getD 0 0 * (|(a :: b :: zp2).getD (2 * 0) 0
          - (c :: d :: zg2).getD (2 * 0) 0|
        + |(a :: b :: zp2).getD (2 * 0 + 1) 0 - (c :: d :: zg2).getD (2 * 0 + 1) 0|)
        = w * (|a - c| + |b - d|) := by
      simp
    have hshift : ∀ k, (w :: v).getD (k + 1) 0
          * (|(a :: b :: zp2).getD (2 * (k + 1)) 0 - (c :: d :: zg2).getD (2 * (k + 1)) 0|
            + |(a :: b :: zp2).getD (2 * (k + 1) + 1) 0
              - (c :: d :: zg2).getD (2 * (k + 1) + 1) 0|)
        = v.getD k 0 * (|zp2.getD (2 * k) 0 - zg2.getD (2 * k) 0|
            + |zp2.getD (2 * k + 1) 0 - zg2.getD (2 * k + 1) 0|) := by
      intro k
      have e1 : 2 * (k + 1) = (2 * k + 1) + 1 := by ring
      rw [e1]
      simp [List.getD_cons_succ]
    rw [Finset.sum_congr rfl (fun k _ => hshift k), hfirst]
    have habs1 : |a * w - c * w| = w * |a - c| := by
      rw [show a * w - c * w = (a - c) * w by ring, abs_mul, abs_of_nonneg hw]
      ring
    have habs2 : |b * w - d * w| = w * |b - d| := by
      rw [show b * w - d * w = (b - d) * w by ring, abs_mul, abs_of_nonneg hw]
      ring
    rw [habs1, habs2]
    ring

theorem claim10_linear_visibility_witness :
    maskedL1 [1, 0] [0, 0] (dup2 [2])
      = ∑ k ∈ Finset.range ([2] : List ℚ).length,
          ([2] : List ℚ).getD k 0 * (|[1, 0].getD (2 * k) 0 - [0, 0].getD (2 * k) 0|
            + |[1, 0].getD (2 * k + 1) 0 - [0, 0].getD (2 * k + 1) 0|) :=
  claim10_linear_visibility [2] [1, 0] [0, 0] (by decide) (by decide) (by decide)

/-! ### Permutation equivariance machinery -/

theorem getD_map_getD (p : List ℕ) (f : ℕ → α) (d : α) (c : ℕ) (hc : c < p.length) :
    (p.map f).getD c d = f (p.getD c 0) := by
  rw [List.getD_eq_getElem _ _ (by simpa using hc), List.getElem_map,
    List.getD_eq_getElem _ _ hc]

theorem elemMatrix_entry (sm : List ℚ → List ℚ) (w : ℚ) (K : ℕ)
    (lab kp : List (List ℚ)) (t : Target) (r c : ℕ)
    (hr : r < (lab.zip kp).length) (hc : c < min t.labels.length t.keypoints.length) :
    ((elemMatrix sm w K lab kp t).getD r []).getD c 0
      = pairCost sm w K (lab.getD r []) (kp.getD r [])
          (t.labels.getD c 0) (t.keypoints.getD c []) := by
  have hrl : r < lab.length := by
    rw [List.length_zip] at hr
    omega
  have hrk : r < kp.length := by
    rw [List.length_zip] at hr
    omega
  have hcl : c < t.labels.length := by omega
  have hck : c < t.keypoints.length := by omega
  have hr' : r < (elemMatrix sm w K lab kp t).length := by
    simpa [elemMatrix] using hr
  rw [List.getD_eq_getElem _ _ hr']
  simp only [elemMatrix, List.getElem_map]
  have hc' : c < ((t.labels.zip t.keypoints).map (fun q =>
      pairCost sm w K ((lab.zip kp)[r]).1 ((lab.zip kp)[r]).2 q.1 q.2)).length := by
    rw [List.length_map, List.length_zip]
    omega
  rw [List.getD_eq_getElem _ _ hc', List.getElem_map]
  simp only [List.getElem_zip]
  rw [List.getD_eq_getElem lab [] hrl, List.getD_eq_getElem kp [] hrk,
    List.getD_eq_getElem t.labels 0 hcl, List.getD_eq_getElem t.keypoints [] hck]

theorem elemMatrix_perm_entry (sm : List ℚ → List ℚ) (w : ℚ) (K : ℕ)
    (lab kp : List (List ℚ)) (t t' : Target) (p : List ℕ)
    (hal : t.labels.length = t.keypoints.length)
    (hp_lt : ∀ x ∈ p, x < t.labels.length)
    (ht'l : t'.labels = p.map (fun j => t.labels.getD j 0))
    (ht'k : t'.keypoints = p.map (fun j => t.keypoints.getD j []))
    (r c : ℕ) (hr : r < (lab.zip kp).length) (hc : c < p.length) :
    ((elemMatrix sm w K lab kp t').getD r []).getD c 0
      = ((elemMatrix sm w K lab kp t).getD r []).getD (p.getD c 0) 0 := by
  have hpc : p.getD c 0 < t.labels.length := by
    rw [List.getD_eq_getElem _ _ hc]
    exact hp_lt _ (List.getElem_mem hc)
  rw [elemMatrix_entry sm w K lab kp t' r c hr (by rw [ht'l, ht'k]; simp; omega),
    elemMatrix_entry sm w K lab kp t r (p.getD c 0) hr (by omega)]
  rw [ht'l, ht'k, getD_map_getD _ _ _ _ hc, getD_map_getD _ _ _ _ hc]

theorem assignCost_map_cols (M M' : List (List ℚ)) (p : List ℕ)
    (hentry : ∀ r c, c < p.length →
      (M'.getD r []).getD c 0 = (M.getD r []).getD (p.getD c 0) 0)
    (rs cs : List ℕ) (hcs : ∀ c ∈ cs, c < p.length) :
    assignCost M' rs cs = assignCost M rs (cs.map (fun c => p.getD c 0)) := by
  induction rs generalizing cs with
  | nil => simp [assignCost]
  | cons r rs ih =>
    cases cs with
    | nil => simp [assignCost]
    | cons c cs =>
      have hc : c < p.length := hcs c (by simp)
      have hrest := ih cs (fun x hx => hcs x (List.mem_cons_of_mem _ hx))
      simp only [assignCost, List.map_cons, List.zip_cons_cons, List.sum_cons] at hrest ⊢
      rw [hentry r c hc, hrest]

theorem perm_surj (p : List ℕ) (m : ℕ) (hlen : p.length = m) (hnd : p.Nodup)
    (hlt : ∀ x ∈ p, x < m) : ∀ c, c < m → c ∈ p := by
  intro c hc
  have hsub : p.toFinset ⊆ Finset.range m := by
    intro x hx
    rw [List.mem_toFinset] at hx
    rw [Finset.mem_range]
    exact hlt x hx
  have hcard : (Finset.range m).card ≤ p.toFinset.card := by
    rw [List.toFinset_card_of_nodup hnd, hlen, Finset.card_range]
  have heq : p.toFinset = Finset.range m := Finset.eq_of_subset_of_card_le hsub hcard
  rw [← List.mem_toFinset, heq, Finset.mem_range]
  exact hc

theorem getD_indexOf (p : List ℕ) (c : ℕ) (hc : c ∈ p) :
    p.getD (p.indexOf c) 0 = c := by
  rw [List.getD_eq_getElem _ _ (List.indexOf_lt_length.2 hc)]
  exact List.getElem_indexOf (List.indexOf_lt_length.2 hc)

theorem getD_inj_of_nodup (p : List ℕ) (hnd : p.Nodup) (c1 c2 : ℕ)
    (h1 : c1 < p.length) (h2 : c2 < p.length)
    (he : p.getD c1 0 = p.getD c2 0) : c1 = c2 := by
  rw [List.getD_eq_getElem _ _ h1, List.getD_eq_getElem _ _ h2] at he
  exact (List.Nodup.getElem_inj_iff hnd).1 he

/-- The permuted copy of a target used to state permutation equivariance:
target `j` of the result is target `p j` of the original, labels permuted
consistently with keypoints. -/
def permTarget (p : List ℕ) (t : Target) : Target :=
  ⟨p.map (fun j => t.labels.getD j 0), p.map (fun j => t.keypoints.getD j [])⟩

set_option maxHeartbeats 1600000 in
/-- C9 (amended): for a batch element whose cost matrix has a unique
minimum-cost assignment (stated as: every equal-cost candidate is the same
multiset of matched pairs), permuting the targets — labels permuted
consistently — produces the same matched pairs as a set of
(prediction index, original target identity) pairs: the permuted run's
target indices, relabeled through the permutation, form the same multiset
as the original run's. -/
theorem claim9_perm_equivariance (sm : List ℚ → List ℚ) (w : ℚ) (K : ℕ)
    (lab kp : List (List ℚ)) (t : Target) (p : List ℕ)
    (hkl : kp.length = lab.length)
    (hal : t.labels.length = t.keypoints.length)
    (hplen : p.length = t.labels.length)
    (hpnd : p.Nodup)
    (hplt : ∀ x ∈ p, x < t.labels.length)
    (huniq : ∀ a ∈ allAssignments lab.length t.labels.length
        (min lab.length t.labels.length),
      assignCost (elemMatrix sm w K lab kp t) a.1 a.2
          = assignCost (elemMatrix sm w K lab kp t)
              (linear_sum_assignment (elemMatrix sm w K lab kp t)).1
              (linear_sum_assignment (elemMatrix sm w K lab kp t)).2 →
        ((a.1.zip a.2 : List (ℕ × ℕ)) : Multiset (ℕ × ℕ))
          = (((linear_sum_assignment (elemMatrix sm w K lab kp t)).1.zip
              (linear_sum_assignment (elemMatrix sm w K lab kp t)).2 : List (ℕ × ℕ))
              : Multiset (ℕ × ℕ))) :
    ((((forward_ sm w K ⟨[lab], [kp]⟩ [permTarget p t]).getD 0 ([], [])).1.zip
        ((((forward_ sm w K ⟨[lab], [kp]⟩ [permTarget p t]).getD 0 ([], [])).2).map
          (fun j => p.getD j 0)) : List (ℕ × ℕ)) : Multiset (ℕ × ℕ))
      = ((((forward_ sm w K ⟨[lab], [kp]⟩ [t]).getD 0 ([], [])).1.zip
          ((forward_ sm w K ⟨[lab], [kp]⟩ [t]).getD 0 ([], [])).2 : List (ℕ × ℕ))
          : Multiset (ℕ × ℕ)) := by
  have ht'l : (permTarget p t).labels = p.map (fun j => t.labels.getD j 0) := rfl
  have ht'k : (permTarget p t).keypoints = p.map (fun j => t.keypoints.getD j []) := rfl
  have hal' : (permTarget p t).labels.length = (permTarget p t).keypoints.length := by
    rw [ht'l, ht'k]
    simp
  rw [forward_single sm w K lab kp t hkl hal,
    forward_single sm w K lab kp (permTarget p t) hkl hal']
  simp only [List.getD_cons_zero]
  set M := elemMatrix sm w K lab kp t with hM
  set M' := elemMatrix sm w K lab kp (permTarget p t) with hM'
  set R := linear_sum_assignment M with hR
  set R' := linear_sum_assignment M' with hR'
  have hMlen : M.length = lab.length := by
    rw [hM, elemMatrix_length, hkl, Nat.min_self]
  have hM'len : M'.length = lab.length := by
    rw [hM', elemMatrix_length, hkl, Nat.min_self]
  by_cases hn : lab.length = 0
  · have hMnil : M = [] := List.eq_nil_of_length_eq_zero (by omega)
    have hM'nil : M' = [] := List.eq_nil_of_length_eq_zero (by omega)
    have h1 : R = ([], []) := by rw [hR, hMnil]; rfl
    have h2 : R' = ([], []) := by rw [hR', hM'nil]; rfl
    rw [h1, h2]
    simp
  · have hnpos : 0 < lab.length := by omega
    have hminpos : 0 < min lab.length kp.length := by
      rw [hkl, Nat.min_self]
      omega
    have hm : (M.getD 0 []).length = t.labels.length := by
      rw [hM, elemMatrix_firstrow sm w K lab kp t hminpos, ← hal, Nat.min_self]
    have hm' : (M'.getD 0 []).length = t.labels.length := by
      rw [hM', elemMatrix_firstrow sm w K lab kp (permTarget p t) hminpos, ht'l, ht'k]
      simp [hplen]
    have V := lsa_valid M
    rw [hMlen, hm] at V
    have V' := lsa_valid M'
    rw [hM'len, hm'] at V'
    unfold ValidAssign at V V'
    obtain ⟨V1, V2, V3, V4, V5, V6⟩ := V
    obtain ⟨V1', V2', V3', V4', V5', V6'⟩ := V'
    have hzipl : (lab.zip kp).length = lab.length := by
      rw [List.length_zip, hkl, Nat.min_self]
    have hentry : ∀ r c, c < p.length →
        (M'.getD r []).getD c 0 = (M.getD r []).getD (p.getD c 0) 0 := by
      intro r c hc
      by_cases hr : r < (lab.zip kp).length
      · exact elemMatrix_perm_entry sm w K lab kp t (permTarget p t) p hal hplt
          ht'l ht'k r c hr hc
      · have hout : M'.getD r [] = [] := by
          apply List.getD_eq_default
          omega
        have hout2 : M.getD r [] = [] := by
          apply List.getD_eq_default
          omega
        rw [hout, hout2]
        simp
    have hsurj : ∀ c, c < t.labels.length → c ∈ p :=
      perm_surj p t.labels.length hplen hpnd hplt
    have e1 : assignCost M' R'.1 R'.2
        = assignCost M R'.1 (R'.2.map (fun c => p.getD c 0)) :=
      assignCost_map_cols M M' p hentry R'.1 R'.2 (fun c hc => by
        have := V6' c hc
        omega)
    have hcomp : (R.2.map (fun c => p.indexOf c)).map (fun c => p.getD c 0) = R.2 := by
      rw [List.map_map]
      have hid : ∀ c ∈ R.2, ((fun c => p.getD c 0) ∘ fun c => p.indexOf c) c = id c :=
        fun c hc => getD_indexOf p c (hsurj c (V6 c hc))
      rw [List.map_congr_left hid, List.map_id]
    have e2 : assignCost M' R.1 (R.2.map (fun c => p.indexOf c))
        = assignCost M R.1 R.2 := by
      rw [assignCost_map_cols M M' p hentry R.1 _ (fun c hc => by
        rcases List.mem_map.1 hc with ⟨c', hc', rfl⟩
        exact List.indexOf_lt_length.2 (hsurj c' (V6 c' hc')))]
      rw [hcomp]
    have hA : ValidAssign lab.length t.labels.length (min lab.length t.labels.length)
        (R'.1, R'.2.map (fun c => p.getD c 0)) := by
      refine ⟨V1', by simpa using V2', V3', ?_, V5', ?_⟩
      · apply V4'.map_on
        intro c1 h1 c2 h2 he
        exact getD_inj_of_nodup p hpnd c1 c2 (by have := V6' c1 h1; omega)
          (by have := V6' c2 h2; omega) he
      · intro x hx
        rcases List.mem_map.1 hx with ⟨c, hc, rfl⟩
        have hcp : c < p.length := by
          have := V6' c hc
          omega
        rw [List.getD_eq_getElem _ _ hcp]
        exact hplt _ (List.getElem_mem hcp)
    have hB : ValidAssign lab.length t.labels.length (min lab.length t.labels.length)
        (R.1, R.2.map (fun c => p.indexOf c)) := by
      refine ⟨V1, by simpa using V2, V3, ?_, V5, ?_⟩
      · apply V4.map_on
        intro c1 h1 c2 h2 he
        calc c1 = p.getD (p.indexOf c1) 0 := (getD_indexOf p c1 (hsurj c1 (V6 c1 h1))).symm
          _ = p.getD (p.indexOf c2) 0 := by rw [he]
          _ = c2 := getD_indexOf p c2 (hsurj c2 (V6 c2 h2))
      · intro x hx
        rcases List.mem_map.1 hx with ⟨c, hc, rfl⟩
        have : p.indexOf c < p.length := List.indexOf_lt_length.2 (hsurj c (V6 c hc))
        omega
    have hminA : assignCost M R.1 R.2
        ≤ assignCost M R'.1 (R'.2.map (fun c => p.getD c 0)) := by
      apply lsa_min M (R'.1, R'.2.map (fun c => p.getD c 0))
      rw [hMlen, hm]
      exact hA
    have hminB : assignCost M' R'.1 R'.2
        ≤ assignCost M' R.1 (R.2.map (fun c => p.indexOf c)) := by
      apply lsa_min M' (R.1, R.2.map (fun c => p.indexOf c))
      rw [hM'len, hm']
      exact hB
    have hcosteq : assignCost M (R'.1, R'.2.map (fun c => p.getD c 0)).1
        (R'.1, R'.2.map (fun c => p.getD c 0)).2 = assignCost M R.1 R.2 := by
      apply le_antisymm
      · calc assignCost M R'.1 (R'.2.map (fun c => p.getD c 0))
            = assignCost M' R'.1 R'.2 := e1.symm
          _ ≤ assignCost M' R.1 (R.2.map (fun c => p.indexOf c)) := hminB
          _ = assignCost M R.1 R.2 := e2
      · exact hminA
    have hmem : (R'.1, R'.2.map (fun c => p.getD c 0))
        ∈ allAssignments lab.length t.labels.length (min lab.length t.labels.length) :=
      (mem_allAssignments _ _ _ _).2 hA
    have := huniq _ hmem hcosteq
    simpa using this

/-- Example predictions for the permutation claims: two queries, two
classes, K = 1, all-zero logits (so the real softmax yields the uniform
distribution `smHalf` computes). -/
def lab9 : List (List ℚ) := [[0, 0], [0, 0]]

/-- Keypoint rows for the two queries of `lab9`. -/
def kp9 : List (List ℚ) := [[0, 0, 0, 0, 1], [10, 10, 0, 0, 1]]

/-- A batch element with two identical targets (a cost tie). -/
def exT9 : Target := ⟨[0, 0], [[0, 0, 0, 0, 1], [0, 0, 0, 0, 1]]⟩

/-- A batch element with two distinct targets (unique optimum). -/
def exT9w : Target := ⟨[0, 0], [[0, 0, 0, 0, 1], [10, 10, 0, 0, 1]]⟩

/-- The swap of the two targets. -/
def perm9 : List ℕ := [1, 0]

theorem elem9_eval : elemMatrix smHalf 1 1 lab9 kp9 exT9
    = [[-(1 / 2), -(1 / 2)], [359 / 2, 359 / 2]] := by
  norm_num [elemMatrix, pairCost, lab9, kp9, exT9, smHalf, centerOf, deltasOf, visOf,
    absOf, expandCenter, dup2, maskedL1, dotAbs, vecMul, vecAdd, sqDist, l_deltas,
    l_vis, l_ctr, l_abs, List.getD]

theorem elem9w_eval : elemMatrix smHalf 1 1 lab9 kp9 exT9w
    = [[-(1 / 2), 359 / 2], [359 / 2, -(1 / 2)]] := by
  norm_num [elemMatrix, pairCost, lab9, kp9, exT9w, smHalf, centerOf, deltasOf, visOf,
    absOf, expandCenter, dup2, maskedL1, dotAbs, vecMul, vecAdd, sqDist, l_deltas,
    l_vis, l_ctr, l_abs, List.getD]

theorem cands22 : allAssignments 2 2 2
    = [([0, 1], [0, 1]), ([0, 1], [1, 0]), ([1, 0], [0, 1]), ([1, 0], [1, 0])] := by
  decide

theorem pickMin_of_forall_not_lt (f : α → ℚ) (a : α) (l : List α)
    (h : ∀ x ∈ l, ¬ f x < f a) : pickMin f a l = a := by
  induction l with
  | nil => rfl
  | cons x l ih =>
      have step : pickMin f a (x :: l) = pickMin f (if f x < f a then x else a) l := rfl
      rw [step, if_neg (h x (List.mem_cons_self x l))]
      exact ih (fun y hy => h y (List.mem_cons_of_mem x hy))

theorem lsa9_eval : linear_sum_assignment [[-(1 / 2), -(1 / 2)], [(359 : ℚ) / 2, 359 / 2]]
    = ([0, 1], [0, 1]) := by
  have hn : ([[-(1 / 2), -(1 / 2)], [(359 : ℚ) / 2, 359 / 2]] : List (List ℚ)).length = 2 := rfl
  have hm : (([[-(1 / 2), -(1 / 2)], [(359 : ℚ) / 2, 359 / 2]] : List (List ℚ)).getD 0 []).length
      = 2 := rfl
  have c1 : assignCost [[-(1 / 2), -(1 / 2)], [(359 : ℚ) / 2, 359 / 2]] [0, 1] [0, 1]
      = -(1 / 2) + (359 / 2 + 0) := rfl
  have c2 : assignCost [[-(1 / 2), -(1 / 2)], [(359 : ℚ) / 2, 359 / 2]] [0, 1] [1, 0]
      = -(1 / 2) + (359 / 2 + 0) := rfl
  have c3 : assignCost [[-(1 / 2), -(1 / 2)], [(359 : ℚ) / 2, 359 / 2]] [1, 0] [0, 1]
      = 359 / 2 + (-(1 / 2) + 0) := rfl
  have c4 : assignCost [[-(1 / 2), -(1 / 2)], [(359 : ℚ) / 2, 359 / 2]] [1, 0] [1, 0]
      = 359 / 2 + (-(1 / 2) + 0) := rfl
  simp only [linear_sum_assignment]
  rw [hn, hm, Nat.min_self, cands22]
  simp only [List.headD_cons, List.tail_cons]
  apply pickMin_of_forall_not_lt
  intro x hx
  simp only [List.mem_cons, List.not_mem_nil, or_false] at hx
  rcases hx with rfl | rfl | rfl
  · show ¬ assignCost [[-(1 / 2), -(1 / 2)], [(359 : ℚ) / 2, 359 / 2]] [0, 1] [1, 0]
        < assignCost [[-(1 / 2), -(1 / 2)], [(359 : ℚ) / 2, 359 / 2]] [0, 1] [0, 1]
    rw [c1, c2]; norm_num
  · show ¬ assignCost [[-(1 / 2), -(1 / 2)], [(359 : ℚ) / 2, 359 / 2]] [1, 0] [0, 1]
        < assignCost [[-(1 / 2), -(1 / 2)], [(359 : ℚ) / 2, 359 / 2]] [0, 1] [0, 1]
    rw [c1, c3]; norm_num
  · show ¬ assignCost [[-(1 / 2), -(1 / 2)], [(359 : ℚ) / 2, 359 / 2]] [1, 0] [1, 0]
        < assignCost [[-(1 / 2), -(1 / 2)], [(359 : ℚ) / 2, 359 / 2]] [0, 1] [0, 1]
    rw [c1, c4]; norm_num

theorem lsa9w_eval : linear_sum_assignment [[-(1 / 2), (359 : ℚ) / 2], [359 / 2, -(1 / 2)]]
    = ([0, 1], [0, 1]) := by
  have hn : ([[-(1 / 2), (359 : ℚ) / 2], [359 / 2, -(1 / 2)]] : List (List ℚ)).length = 2 := rfl
  have hm : (([[-(1 / 2), (359 : ℚ) / 2], [359 / 2, -(1 / 2)]] : List (List ℚ)).getD 0 []).length
      = 2 := rfl
  have c1 : assignCost [[-(1 / 2), (359 : ℚ) / 2], [359 / 2, -(1 / 2)]] [0, 1] [0, 1]
      = -(1 / 2) + (-(1 / 2) + 0) := rfl
  have c2 : assignCost [[-(1 / 2), (359 : ℚ) / 2], [359 / 2, -(1 / 2)]] [0, 1] [1, 0]
      = 359 / 2 + (359 / 2 + 0) := rfl
  have c3 : assignCost [[-(1 / 2), (359 : ℚ) / 2], [359 / 2, -(1 / 2)]] [1, 0] [0, 1]
      = 359 / 2 + (359 / 2 + 0) := rfl
  have c4 : assignCost [[-(1 / 2), (359 : ℚ) / 2], [359 / 2, -(1 / 2)]] [1, 0] [1, 0]
      = -(1 / 2) + (-(1 / 2) + 0) := rfl
  simp only [linear_sum_assignment]
  rw [hn, hm, Nat.min_self, cands22]
  simp only [List.headD_cons, List.tail_cons]
  apply pickMin_of_forall_not_lt
  intro x hx
  simp only [List.mem_cons, List.not_mem_nil, or_false] at hx
  rcases hx with rfl | rfl | rfl
  · show ¬ assignCost [[-(1 / 2), (359 : ℚ) / 2], [359 / 2, -(1 / 2)]] [0, 1] [1, 0]
        < assignCost [[-(1 / 2), (359 : ℚ) / 2], [359 / 2, -(1 / 2)]] [0, 1] [0, 1]
    rw [c1, c2]; norm_num
  · show ¬ assignCost [[-(1 / 2), (359 : ℚ) / 2], [359 / 2, -(1 / 2)]] [1, 0] [0, 1]
        < assignCost [[-(1 / 2), (359 : ℚ) / 2], [359 / 2, -(1 / 2)]] [0, 1] [0, 1]
    rw [c1, c3]; norm_num
  · show ¬ assignCost [[-(1 / 2), (359 : ℚ) / 2], [359 / 2, -(1 / 2)]] [1, 0] [1, 0]
        < assignCost [[-(1 / 2), (359 : ℚ) / 2], [359 / 2, -(1 / 2)]] [0, 1] [0, 1]
    rw [c1, c4]; norm_num

/-- C9 counterexample: the unamended claim — permuting a batch element's
targets always yields the same matched pairs up to relabeling — is false
under cost ties.  With two identical targets every assignment has equal
cost, the deterministic tie-break returns ([0, 1], [0, 1]) for both the
original and the (swap-)permuted element, and relabeling the permuted
run's target indices through the swap gives the multiset
{(0, 1), (1, 0)} ≠ {(0, 0), (1, 1)}. -/
theorem claim9_counterexample :
    ¬ ((((forward_ smHalf 1 1 ⟨[lab9], [kp9]⟩ [permTarget perm9 exT9]).getD 0 ([], [])).1.zip
        ((((forward_ smHalf 1 1 ⟨[lab9], [kp9]⟩ [permTarget perm9 exT9]).getD 0 ([], [])).2).map
          (fun j => perm9.getD j 0)) : List (ℕ × ℕ)) : Multiset (ℕ × ℕ))
      = ((((forward_ smHalf 1 1 ⟨[lab9], [kp9]⟩ [exT9]).getD 0 ([], [])).1.zip
          ((forward_ smHalf 1 1 ⟨[lab9], [kp9]⟩ [exT9]).getD 0 ([], [])).2 : List (ℕ × ℕ))
          : Multiset (ℕ × ℕ)) := by
  have hpt : permTarget perm9 exT9 = exT9 := rfl
  rw [hpt, forward_single smHalf 1 1 lab9 kp9 exT9 rfl rfl]
  simp only [List.getD_cons_zero]
  rw [elem9_eval, lsa9_eval]
  decide

/-- Witness for C9 at a concrete input with a unique optimum: two distinct
targets, the swap permutation; both runs match query 0 to the origin
target and query 1 to the far target, so the relabeled multisets agree. -/
theorem claim9_perm_equivariance_witness :
    ((((forward_ smHalf 1 1 ⟨[lab9], [kp9]⟩ [permTarget perm9 exT9w]).getD 0 ([], [])).1.zip
        ((((forward_ smHalf 1 1 ⟨[lab9], [kp9]⟩ [permTarget perm9 exT9w]).getD 0 ([], [])).2).map
          (fun j => perm9.getD j 0)) : List (ℕ × ℕ)) : Multiset (ℕ × ℕ))
      = ((((forward_ smHalf 1 1 ⟨[lab9], [kp9]⟩ [exT9w]).getD 0 ([], [])).1.zip
          ((forward_ smHalf 1 1 ⟨[lab9], [kp9]⟩ [exT9w]).getD 0 ([], [])).2 : List (ℕ × ℕ))
          : Multiset (ℕ × ℕ)) :=
  claim9_perm_equivariance smHalf 1 1 lab9 kp9 exT9w perm9 rfl rfl rfl (by decide) (by decide)
    (by
      intro a ha he
      rw [elem9w_eval] at he ⊢
      rw [lsa9w_eval] at he ⊢
      have ha' : a ∈ allAssignments 2 2 2 := ha
      rw [cands22] at ha'
      simp only [List.mem_cons, List.not_mem_nil, or_false] at ha'
      rcases ha' with rfl | rfl | rfl | rfl
      · rfl
      · exfalso
        dsimp only at he
        have e1 : assignCost [[-(1 / 2), (359 : ℚ) / 2], [359 / 2, -(1 / 2)]] [0, 1] [1, 0]
            = 359 / 2 + (359 / 2 + 0) := rfl
        have e2 : assignCost [[-(1 / 2), (359 : ℚ) / 2], [359 / 2, -(1 / 2)]] [0, 1] [0, 1]
            = -(1 / 2) + (-(1 / 2) + 0) := rfl
        rw [e1, e2] at he
        norm_num at he
      · exfalso
        dsimp only at he
        have e3 : assignCost [[-(1 / 2), (359 : ℚ) / 2], [359 / 2, -(1 / 2)]] [1, 0] [0, 1]
            = 359 / 2 + (359 / 2 + 0) := rfl
        have e2 : assignCost [[-(1 / 2), (359 : ℚ) / 2], [359 / 2, -(1 / 2)]] [0, 1] [0, 1]
            = -(1 / 2) + (-(1 / 2) + 0) := rfl
        rw [e3, e2] at he
        norm_num at he
      · decide)

end Matcher
